import Mathlib

/-!
Verification of the batch video converter (`src/cutfile.py`, class `VideoConverter`).

The Python class is shallowly embedded as follows.

* Strings and path manipulation (`os.path.join`, `os.path.relpath`,
  `os.path.splitext`) are translated character-for-character from CPython's
  `posixpath`/`genericpath` implementations (POSIX separator `/`; the GUI
  supplies absolute directory paths, so `relpath` is modelled without the
  `abspath` normalisation step).
* The filesystem seen by `os.walk` / `os.listdir` is a finite tree of `Entry`
  values passed in explicitly; `os.walk` is the standard top-down traversal.
* The external encoder process is an oracle `exec : List String → ProcResult`
  mapping the argument vector to either a completed process (exit code,
  captured stdout/stderr text) or a raised exception (its message text);
  `subprocess.run` with `check` set raises `CalledProcessError` (carrying the
  captured stderr) on a non-zero exit code.
* The cancellation flag is written only by the control context (always to
  `True`), so the run's successive reads of `self.cancel_flag` are modelled as
  an oracle `cancel : ℕ → Bool` indexed by the read number; the real flag is
  monotone (never reset), which theorems about cancellation assume explicitly.
* `queue.Queue.put` calls are modelled by appending to lists (`logs`,
  `progress`); side effects on the filesystem and processes (`os.makedirs`,
  `subprocess.run`) are recorded in an ordered `effects` list.
* Python log/progress message strings are represented by inductives carrying
  the interpolated data (one constructor per `put` site in the source).
* The percentage `int((processed / total) * 100)` is computed by CPython in
  IEEE-754 double precision (true division and multiplication are correctly
  rounded, round-to-nearest ties-to-even; `int` truncates toward zero).  The
  model `pyPct` implements that arithmetic exactly over ℚ.
-/

/-! ### Python string/path primitives -/

/-- `str.lower` (ASCII range, as used by the file-extension comparison). -/
def lowerStr (s : String) : String := String.mk (s.toList.map Char.toLower)

/-- `str.startswith`: character-sequence prefix test. -/
def strStarts (s pre : String) : Bool := pre.toList.isPrefixOf s.toList

/-- `str.endswith`: character-sequence suffix test. -/
def strEnds (s suf : String) : Bool := suf.toList.reverse.isPrefixOf s.toList.reverse

/-- `sep.join parts`. -/
def strJoin (sep : String) : List String → String
  | [] => ""
  | [x] => x
  | x :: y :: xs => x ++ sep ++ strJoin sep (y :: xs)

/-- `posixpath.join a b`: if `b` is absolute it replaces `a`; otherwise it is
appended, inserting `/` unless `a` is empty or already ends in `/`. -/
def pjoin (a b : String) : String :=
  if strStarts b "/" then b
  else if a = "" || strEnds a "/" then a ++ b
  else a ++ "/" ++ b

/-- Index of the last occurrence of `c` in the list, if any. -/
def lastIdx (c : Char) : List Char → Option ℕ
  | [] => none
  | x :: xs =>
    match lastIdx c xs with
    | some j => some (j + 1)
    | none => if x = c then some 0 else none

/-- `posixpath.splitext`: split at the last `.` that lies after the last `/`
and after at least one non-dot character of the basename (so a leading-dot
name such as `.mpg` has no extension). -/
def splitext (p : String) : String × String :=
  let l := p.toList
  let dotI : ℤ := ((lastIdx '.' l).map Int.ofNat).getD (-1)
  let sepI : ℤ := ((lastIdx '/' l).map Int.ofNat).getD (-1)
  if sepI < dotI then
    if ((l.drop (sepI + 1).toNat).take (dotI - sepI - 1).toNat).any (fun ch => ch ≠ '.') then
      (String.mk (l.take dotI.toNat), String.mk (l.drop dotI.toNat))
    else (p, "")
  else (p, "")

/-- Path components: split on `/` and drop empty pieces. -/
def splitParts (p : String) : List String :=
  ((p.toList.splitOn '/').map String.mk).filter (fun s => s ≠ "")

/-- Length of the longest common prefix of two component lists. -/
def commonLen : List String → List String → ℕ
  | a :: as, b :: bs => if a = b then commonLen as bs + 1 else 0
  | _, _ => 0

/-- `posixpath.relpath path start` for already-absolute inputs: drop the common
component prefix, ascend with `..` for what is left of `start`, descend with
the remainder of `path`; the empty result is the current directory `.`. -/
def relpath (path start : String) : String :=
  let pl := splitParts path
  let sl := splitParts start
  let i := commonLen sl pl
  let rel := List.replicate (sl.length - i) ".." ++ pl.drop i
  if rel = [] then "." else strJoin "/" rel

/-! ### IEEE-754 double-precision model of the percentage computation -/

/-- Round `a / b` (naturals, `b > 0`) to the nearest integer, ties to even. -/
def rndHalfEven (a b : ℕ) : ℕ :=
  let q := a / b
  let r := a % b
  if 2 * r < b then q
  else if b < 2 * r then q + 1
  else if q % 2 = 0 then q else q + 1

/-- Floor of the base-2 logarithm, with structural fuel so that it evaluates
by kernel reduction; `log2Fuel n n` equals the usual `Nat.log2 n`. -/
def log2Fuel : ℕ → ℕ → ℕ
  | 0, _ => 0
  | fuel + 1, n => if 2 ≤ n then log2Fuel fuel (n / 2) + 1 else 0

def nlog2 (n : ℕ) : ℕ := log2Fuel n n

/-- Binade exponent of the positive rational `a / b`: the unique `e` with
`2 ^ e ≤ a / b < 2 ^ (e + 1)` (requires `a ≥ 1`, `b ≥ 1`). -/
def fexpD (a b : ℕ) : ℤ :=
  let k := nlog2 b + 1
  (nlog2 (a * 2 ^ k / b) : ℤ) - k

/-- Correctly round the positive rational `a / b` to a double, returned as a
dyadic pair `(m, e)` standing for `m·2^e`: keep 53 significant bits, round to
nearest, ties to even.  (All values arising here are normal and far from
overflow, so exponent limits are irrelevant.) -/
def roundDivD (a b : ℕ) : ℕ × ℤ :=
  let s : ℤ := 52 - fexpD a b
  if 0 ≤ s then (rndHalfEven (a * 2 ^ s.toNat) b, -s)
  else (rndHalfEven a (b * 2 ^ (-s).toNat), -s)

/-- CPython `int / int` true division: the correctly rounded double quotient
of `p / t`, as a dyadic pair. -/
def fdivD (p t : ℕ) : ℕ × ℤ := if p = 0 then (0, 0) else roundDivD p t

/-- Round a nonnegative dyadic value back to a double. -/
def roundDyadic (x : ℕ × ℤ) : ℕ × ℤ :=
  if x.1 = 0 then (0, 0)
  else if 0 ≤ x.2 then roundDivD (x.1 * 2 ^ x.2.toNat) 1
  else roundDivD x.1 (2 ^ (-x.2).toNat)

/-- Double-precision multiplication by the exact constant `100.0`: the exact
product rounded to nearest, ties to even. -/
def fmul100 (x : ℕ × ℤ) : ℕ × ℤ := roundDyadic (100 * x.1, x.2)

/-- Floor of a nonnegative dyadic value. -/
def floorD (x : ℕ × ℤ) : ℕ :=
  if 0 ≤ x.2 then x.1 * 2 ^ x.2.toNat else x.1 / 2 ^ (-x.2).toNat

/-- `int((p / t) * 100)` as evaluated by CPython in IEEE-754 double precision
(the literal `100` is exact; `int` truncates toward zero, which on these
nonnegative values is the floor). -/
def pyPct (p t : ℕ) : ℕ := floorD (fmul100 (fdivD p t))

/-! ### Filesystem model -/

/-- A directory entry: a regular file or a subdirectory with its entries. -/
inductive Entry : Type where
  | file : String → Entry
  | dir : String → List Entry → Entry

def dirName? : Entry → Option String
  | Entry.dir n _ => some n
  | Entry.file _ => none

def fileName? : Entry → Option String
  | Entry.file n => some n
  | Entry.dir _ _ => none

/-- `os.listdir` returns the bare names of all entries, files and
subdirectories alike. -/
def entryName : Entry → String
  | Entry.file n => n
  | Entry.dir n _ => n

mutual
/-- `os.walk path` (top-down): the frame `(path, dirnames, filenames)` for the
directory itself, then the frames of each subdirectory in order. -/
def walk (path : String) (es : List Entry) : List (String × List String × List String) :=
  (path, es.filterMap dirName?, es.filterMap fileName?) :: walkSub path es
termination_by sizeOf es + 1

/-- Frames contributed by the subdirectories among `es`. -/
def walkSub (path : String) : List Entry → List (String × List String × List String)
  | [] => []
  | Entry.file _ :: rest => walkSub path rest
  | Entry.dir n cs :: rest => walk (pjoin path n) cs ++ walkSub path rest
termination_by es => sizeOf es
end

/-! ### The `VideoConverter` object -/

/-- The fields set up by `VideoConverter.__init__`.  The two queues are empty
and the cancellation flag clear on a freshly constructed instance. -/
structure VideoConverter where
  input_dir : String
  output_dir : String
  ffmpeg_path : String
  src_formats : List String
  dst_format : String
  preserve_structure : Bool
deriving DecidableEq, Repr

/-- One `(root, filename)` pair produced by `get_video_files`. -/
structure FileEntry where
  root : String
  name : String
deriving DecidableEq, Repr

/-- `file.lower().endswith(ext)` for any selected source extension. -/
def matchesFormats (formats : List String) (file : String) : Bool :=
  formats.any (fun ext => strEnds (lowerStr file) ext)

/-- `VideoConverter.get_video_files`: with `preserve_structure`, scan the whole
tree with `os.walk` and keep matching names from each frame's file list;
otherwise scan only the immediate `os.listdir` names (files or not). -/
def get_video_files (c : VideoConverter) (fs : List Entry) : List FileEntry :=
  if c.preserve_structure then
    (walk c.input_dir fs).flatMap (fun fr =>
      (fr.2.2.filter (matchesFormats c.src_formats)).map (fun f => ⟨fr.1, f⟩))
  else
    ((fs.map entryName).filter (matchesFormats c.src_formats)).map
      (fun f => ⟨c.input_dir, f⟩)

/-! ### Encoder invocation -/

/-- Outcome of `subprocess.run`: a completed process with exit code and
captured stdout/stderr text, or an exception raised while invoking (launch
failure and the like), carrying `str(e)`. -/
inductive ProcResult : Type where
  | exit : ℤ → String → String → ProcResult
  | raised : String → ProcResult
deriving DecidableEq, Repr

/-- The ffmpeg argument vector built by `convert_video`: a fixed row per
destination format, defaulting to a lossless stream copy. -/
def build_cmd (ffmpeg_path input_path output_path dst_format : String) : List String :=
  if dst_format = ".mp4" then
    [ffmpeg_path, "-i", input_path, "-c:v", "libx264", "-crf", "23",
     "-preset", "medium", "-c:a", "aac", "-b:a", "128k", "-y", output_path]
  else if dst_format = ".webm" then
    [ffmpeg_path, "-i", input_path, "-c:v", "libvpx-vp9", "-crf", "30",
     "-b:v", "0", "-c:a", "libopus", "-b:a", "128k", "-y", output_path]
  else if dst_format = ".avi" then
    [ffmpeg_path, "-i", input_path, "-c:v", "mpeg4", "-q:v", "3",
     "-c:a", "mp3", "-b:a", "128k", "-y", output_path]
  else if dst_format = ".mov" then
    [ffmpeg_path, "-i", input_path, "-c:v", "h264", "-crf", "23",
     "-c:a", "aac", "-b:a", "128k", "-y", output_path]
  else
    [ffmpeg_path, "-i", input_path, "-c", "copy", "-y", output_path]

/-- `VideoConverter.convert_video`: run the encoder; exit code 0 yields
`(True, stderr)`; `CalledProcessError` (non-zero exit) yields
`(False, e.stderr)`; any other exception yields `(False, str(e))`.  The
function is total: no exception escapes to the caller. -/
def convert_video (c : VideoConverter) (exec : List String → ProcResult)
    (input_path output_path : String) : Bool × String :=
  match exec (build_cmd c.ffmpeg_path input_path output_path c.dst_format) with
  | ProcResult.exit 0 _ err => (true, err)
  | ProcResult.exit _ _ err => (false, err)
  | ProcResult.raised msg => (false, msg)

/-! ### The orchestrator run -/

/-- One line put on the log queue, one constructor per `put` site. -/
inductive LogEvent : Type where
  | startLine
  | inputDirLine : String → LogEvent
  | outputDirLine : String → LogEvent
  | srcFormatsLine : String → LogEvent
  | dstFormatLine : String → LogEvent
  | preserveLine : Bool → LogEvent
  | dashLine
  | noFiles
  | cancelBreak
  | converting : String → String → LogEvent
  | fileSuccess : String → LogEvent
  | fileFailure : String → LogEvent
  | errorInfo : String → LogEvent
  | cancelledFinal
  | eqLine
  | summary : ℕ → ℕ → LogEvent
  | cancelRequested
deriving DecidableEq, Repr

/-- The status string of a progress-queue tuple, with its interpolated data. -/
inductive Status : Type where
  | nothingToConvert
  | processing : String → Status
  | progressOf : ℕ → ℕ → ℕ → Status
  | cancelled
  | completed
deriving DecidableEq, Repr

/-- A `(processed, total, status)` tuple put on the progress queue. -/
abbrev ProgressEvent := ℕ × ℕ × Status

/-- A side effect of the run, in program order: `os.makedirs` (with existing
directories tolerated) or a `subprocess.run` encoder invocation. -/
inductive Effect : Type where
  | mkdir : String → Effect
  | invoke : List String → Effect
deriving DecidableEq, Repr

/-- Everything `start_conversion` produces: the two queues' contents, the
ordered external side effects, and the final `processed_files` counter. -/
structure RunTrace where
  logs : List LogEvent
  progress : List ProgressEvent
  effects : List Effect
  processed : ℕ
deriving DecidableEq, Repr

/-- The body of the `for root, file in video_files` loop for one file:
resolve the output path (creating the mirrored subdirectory when preserving
structure), log the start, emit the pre-invocation progress tuple, invoke the
encoder, log success or failure (failure adds the first 200 characters of the
diagnostic), increment `processed_files` and emit the post-file progress
tuple with the float-computed percentage. -/
def step_file (c : VideoConverter) (exec : List String → ProcResult) (total : ℕ)
    (fe : FileEntry) (tr : RunTrace) : RunTrace :=
  let input_path := pjoin fe.root fe.name
  let output_file := (splitext fe.name).1 ++ c.dst_format
  let outp :=
    if c.preserve_structure then
      let rel_path := relpath fe.root c.input_dir
      let output_subdir := pjoin c.output_dir rel_path
      (pjoin output_subdir output_file, [Effect.mkdir output_subdir])
    else
      (pjoin c.output_dir output_file, ([] : List Effect))
  let output_path := outp.1
  let sl := convert_video c exec input_path output_path
  let logsA := tr.logs ++ [LogEvent.converting fe.name output_file]
  let progA := tr.progress ++ [(tr.processed, total, Status.processing fe.name)]
  let logsB :=
    if sl.1 then logsA ++ [LogEvent.fileSuccess fe.name]
    else logsA ++ [LogEvent.fileFailure fe.name,
                   LogEvent.errorInfo (String.mk (sl.2.toList.take 200))]
  let p1 := tr.processed + 1
  { logs := logsB
    progress := progA ++ [(p1, total, Status.progressOf p1 total (pyPct p1 total))]
    effects := tr.effects ++ outp.2 ++
      [Effect.invoke (build_cmd c.ffmpeg_path input_path output_path c.dst_format)]
    processed := p1 }

/-- The `for` loop of `start_conversion`.  Each iteration first reads the
cancellation flag (read number `idx`); a set flag logs the in-loop
cancellation line and breaks.  Returns the trace and the next read number
(the post-loop `if self.cancel_flag` read). -/
def run_loop (c : VideoConverter) (exec : List String → ProcResult)
    (cancel : ℕ → Bool) (total : ℕ) :
    List FileEntry → ℕ → RunTrace → RunTrace × ℕ
  | [], idx, tr => (tr, idx)
  | fe :: rest, idx, tr =>
    if cancel idx then
      ({ tr with logs := tr.logs ++ [LogEvent.cancelBreak] }, idx + 1)
    else
      run_loop c exec cancel total rest (idx + 1) (step_file c exec total fe tr)

/-- The seven header lines logged at the top of `start_conversion`. -/
def run_header (c : VideoConverter) : List LogEvent :=
  [LogEvent.startLine, LogEvent.inputDirLine c.input_dir,
   LogEvent.outputDirLine c.output_dir,
   LogEvent.srcFormatsLine (strJoin ", " c.src_formats),
   LogEvent.dstFormatLine c.dst_format,
   LogEvent.preserveLine c.preserve_structure, LogEvent.dashLine]

/-- `VideoConverter.start_conversion` for a freshly constructed instance
(queues empty, counters zero): log the header, enumerate, handle the empty
case, run the loop, then emit the cancelled or completed terminal events
according to the post-loop flag read. -/
def start_conversion (c : VideoConverter) (fs : List Entry)
    (exec : List String → ProcResult) (cancel : ℕ → Bool) : RunTrace :=
  let tr0 : RunTrace :=
    { logs := run_header c
      progress := []
      effects := []
      processed := 0 }
  let video_files := get_video_files c fs
  let total_files := video_files.length
  if total_files = 0 then
    { tr0 with logs := tr0.logs ++ [LogEvent.noFiles]
               progress := [(0, 0, Status.nothingToConvert)] }
  else
    let r := run_loop c exec cancel total_files video_files 0 tr0
    if cancel r.2 then
      { r.1 with logs := r.1.logs ++ [LogEvent.cancelledFinal]
                 progress := r.1.progress ++ [(r.1.processed, total_files, Status.cancelled)] }
    else
      { r.1 with logs := r.1.logs ++ [LogEvent.eqLine, LogEvent.summary r.1.processed total_files]
                 progress := r.1.progress ++ [(r.1.processed, total_files, Status.completed)] }

/-- The state of a converter object visible to the control context: the
constructor fields plus the mutable flag and the two queues. -/
structure ConverterState where
  config : VideoConverter
  cancel_flag : Bool
  log_queue : List LogEvent
  progress_queue : List ProgressEvent
deriving DecidableEq, Repr

/-- `VideoConverter.cancel`: set the flag and put one line on the log queue. -/
def requestCancel (st : ConverterState) : ConverterState :=
  { st with cancel_flag := true
            log_queue := st.log_queue ++ [LogEvent.cancelRequested] }

/-! ### Derived per-file descriptions of the loop body

These name the values the loop body computes for one `FileEntry`, so that
whole-run traces can be written as concatenations over the file list.  Each
is read off the corresponding lines of `start_conversion`'s loop. -/

/-- `output_file`: source filename with its extension replaced. -/
def output_file_of (c : VideoConverter) (fe : FileEntry) : String :=
  (splitext fe.name).1 ++ c.dst_format

/-- `output_subdir`: destination root joined with the root's path relative to
the source root (only used when preserving structure). -/
def output_subdir_of (c : VideoConverter) (fe : FileEntry) : String :=
  pjoin c.output_dir (relpath fe.root c.input_dir)

/-- `output_path` as resolved for one file in either mode. -/
def output_path_of (c : VideoConverter) (fe : FileEntry) : String :=
  if c.preserve_structure then pjoin (output_subdir_of c fe) (output_file_of c fe)
  else pjoin c.output_dir (output_file_of c fe)

/-- The encoder argument vector used for one file. -/
def cmd_of (c : VideoConverter) (fe : FileEntry) : List String :=
  build_cmd c.ffmpeg_path (pjoin fe.root fe.name) (output_path_of c fe) c.dst_format

/-- The `(success, log)` pair returned by `convert_video` for one file. -/
def convResult_of (c : VideoConverter) (exec : List String → ProcResult)
    (fe : FileEntry) : Bool × String :=
  convert_video c exec (pjoin fe.root fe.name) (output_path_of c fe)

/-- The per-file success flag. -/
def success_of (c : VideoConverter) (exec : List String → ProcResult)
    (fe : FileEntry) : Bool :=
  (convResult_of c exec fe).1

/-- The external side effects of one loop iteration, in order. -/
def effects_of (c : VideoConverter) (fe : FileEntry) : List Effect :=
  (if c.preserve_structure then [Effect.mkdir (output_subdir_of c fe)] else []) ++
    [Effect.invoke (cmd_of c fe)]

/-- The log lines of one loop iteration, in order. -/
def logs_of (c : VideoConverter) (exec : List String → ProcResult)
    (fe : FileEntry) : List LogEvent :=
  LogEvent.converting fe.name (output_file_of c fe) ::
    (if success_of c exec fe then [LogEvent.fileSuccess fe.name]
     else [LogEvent.fileFailure fe.name,
           LogEvent.errorInfo (String.mk ((convResult_of c exec fe).2.toList.take 200))])

/-- The two progress tuples of one loop iteration, starting from processed
count `p`. -/
def events_of (total p : ℕ) (fe : FileEntry) : List ProgressEvent :=
  [(p, total, Status.processing fe.name),
   (p + 1, total, Status.progressOf (p + 1) total (pyPct (p + 1) total))]

/-- All progress tuples emitted while processing `files`, starting from
processed count `p`. -/
def loop_events (total : ℕ) : ℕ → List FileEntry → List ProgressEvent
  | _, [] => []
  | p, fe :: rest => events_of total p fe ++ loop_events total (p + 1) rest

def isInvoke : Effect → Bool
  | Effect.invoke _ => true
  | Effect.mkdir _ => false

def isFailureLine : LogEvent → Bool
  | LogEvent.fileFailure _ => true
  | _ => false

def isNoFilesLine : LogEvent → Bool
  | LogEvent.noFiles => true
  | _ => false

/-! ### Characterisation lemmas for the loop and the run -/

theorem step_file_eq (c : VideoConverter) (exec : List String → ProcResult)
    (total : ℕ) (fe : FileEntry) (tr : RunTrace) :
    step_file c exec total fe tr =
      { logs := tr.logs ++ logs_of c exec fe
        progress := tr.progress ++ events_of total tr.processed fe
        effects := tr.effects ++ effects_of c fe
        processed := tr.processed + 1 } := by
  unfold step_file logs_of events_of effects_of success_of convResult_of cmd_of
    output_path_of output_subdir_of output_file_of
  cases hp : c.preserve_structure <;>
    simp only [hp, if_true, if_false, Bool.false_eq_true, ite_true, ite_false] <;>
    cases hs : (convert_video c exec (pjoin fe.root fe.name) _).1 <;>
    simp [hs, List.append_assoc]

theorem run_loop_no_cancel (c : VideoConverter) (exec : List String → ProcResult)
    (cancel : ℕ → Bool) (total : ℕ) (files : List FileEntry) :
    ∀ idx tr, (∀ i, i < files.length → cancel (idx + i) = false) →
    run_loop c exec cancel total files idx tr =
      ({ logs := tr.logs ++ files.flatMap (logs_of c exec)
         progress := tr.progress ++ loop_events total tr.processed files
         effects := tr.effects ++ files.flatMap (effects_of c)
         processed := tr.processed + files.length }, idx + files.length) := by
  induction files with
  | nil => intro idx tr _; simp [run_loop, loop_events]
  | cons fe rest ih =>
    intro idx tr h
    have h0 : cancel idx = false := by
      have := h 0 (by simp)
      simpa using this
    rw [run_loop, h0]
    simp only [Bool.false_eq_true, if_false]
    rw [ih (idx + 1) _ (fun i hi => by
      have := h (i + 1) (by simpa using Nat.succ_lt_succ hi)
      simpa [Nat.add_assoc, Nat.add_comm 1 i] using this)]
    rw [step_file_eq]
    simp [loop_events, List.append_assoc, Nat.add_assoc, Nat.add_comm 1 rest.length,
      Nat.add_left_comm]

theorem run_loop_cancel_at (c : VideoConverter) (exec : List String → ProcResult)
    (cancel : ℕ → Bool) (total : ℕ) (files : List FileEntry) :
    ∀ k idx tr, (∀ i, i < k → cancel (idx + i) = false) → cancel (idx + k) = true →
      k < files.length →
    run_loop c exec cancel total files idx tr =
      ({ logs := tr.logs ++ (files.take k).flatMap (logs_of c exec) ++ [LogEvent.cancelBreak]
         progress := tr.progress ++ loop_events total tr.processed (files.take k)
         effects := tr.effects ++ (files.take k).flatMap (effects_of c)
         processed := tr.processed + k }, idx + k + 1) := by
  induction files with
  | nil => intro k idx tr _ _ hk; simp at hk
  | cons fe rest ih =>
    intro k idx tr hlt htrue hk
    cases k with
    | zero =>
      have h0 : cancel idx = true := by simpa using htrue
      rw [run_loop, h0]
      simp [loop_events]
    | succ j =>
      have h0 : cancel idx = false := by
        have := hlt 0 (Nat.succ_pos j)
        simpa using this
      rw [run_loop, h0]
      simp only [Bool.false_eq_true, if_false]
      rw [ih j (idx + 1) _ (fun i hi => by
          have := hlt (i + 1) (Nat.succ_lt_succ hi)
          simpa [Nat.add_assoc, Nat.add_comm 1 i] using this)
        (by
          have : idx + 1 + j = idx + (j + 1) := by omega
          rw [this]; exact htrue)
        (by simpa using Nat.lt_of_succ_lt_succ hk)]
      rw [step_file_eq]
      simp [loop_events, List.append_assoc, Nat.add_assoc, Nat.add_comm 1 j,
        Nat.add_left_comm]

theorem start_conversion_empty (c : VideoConverter) (fs : List Entry)
    (exec : List String → ProcResult) (cancel : ℕ → Bool)
    (h : get_video_files c fs = []) :
    start_conversion c fs exec cancel =
      { logs := run_header c ++ [LogEvent.noFiles]
        progress := [(0, 0, Status.nothingToConvert)]
        effects := []
        processed := 0 } := by
  unfold start_conversion
  simp [h]

theorem start_conversion_exhaust (c : VideoConverter) (fs : List Entry)
    (exec : List String → ProcResult) (cancel : ℕ → Bool) (files : List FileEntry)
    (hf : files = get_video_files c fs) (hne : files ≠ [])
    (hnc : ∀ i, i < files.length → cancel i = false) :
    start_conversion c fs exec cancel =
      { logs := run_header c ++ files.flatMap (logs_of c exec) ++
          (if cancel files.length then [LogEvent.cancelledFinal]
           else [LogEvent.eqLine, LogEvent.summary files.length files.length])
        progress := loop_events files.length 0 files ++
          [(files.length, files.length,
            if cancel files.length then Status.cancelled else Status.completed)]
        effects := files.flatMap (effects_of c)
        processed := files.length } := by
  unfold start_conversion
  rw [← hf]
  have hlen : files.length ≠ 0 := by simpa using hne
  simp only [hlen, if_false]
  rw [run_loop_no_cancel c exec cancel files.length files 0 _ (fun i hi => by simpa using hnc i hi)]
  by_cases hb : cancel (0 + files.length) = true <;>
    simp [hb, List.append_assoc] <;> simp at hb <;> simp [hb]

theorem start_conversion_break (c : VideoConverter) (fs : List Entry)
    (exec : List String → ProcResult) (cancel : ℕ → Bool) (files : List FileEntry) (k : ℕ)
    (hf : files = get_video_files c fs) (hk : k < files.length)
    (hkt : cancel k = true) (hkf : ∀ i, i < k → cancel i = false) :
    start_conversion c fs exec cancel =
      { logs := run_header c ++ (files.take k).flatMap (logs_of c exec) ++
          [LogEvent.cancelBreak] ++
          (if cancel (k + 1) then [LogEvent.cancelledFinal]
           else [LogEvent.eqLine, LogEvent.summary k files.length])
        progress := loop_events files.length 0 (files.take k) ++
          [(k, files.length, if cancel (k + 1) then Status.cancelled else Status.completed)]
        effects := (files.take k).flatMap (effects_of c)
        processed := k } := by
  unfold start_conversion
  rw [← hf]
  have hlen : files.length ≠ 0 := by omega
  simp only [hlen, if_false]
  rw [run_loop_cancel_at c exec cancel files.length files k 0 _
    (fun i hi => by simpa using hkf i hi) (by simpa using hkt) hk]
  by_cases hb : cancel (k + 1) = true <;>
    simp at hb <;> simp [hb, List.append_assoc]

/-- For any flag-read oracle and window, either no read in the window is set,
or there is a first set read. -/
theorem cancel_first (cancel : ℕ → Bool) (n : ℕ) :
    (∀ i, i < n → cancel i = false) ∨
    (∃ k, k < n ∧ cancel k = true ∧ ∀ i, i < k → cancel i = false) := by
  induction n with
  | zero => left; omega
  | succ m ih =>
    rcases ih with hall | ⟨k, hk, hkt, hkf⟩
    · by_cases hm : cancel m = true
      · right; exact ⟨m, Nat.lt_succ_self m, hm, hall⟩
      · left
        intro i hi
        rcases Nat.lt_succ_iff_lt_or_eq.mp hi with h | h
        · exact hall i h
        · subst h; simpa using hm
    · right; exact ⟨k, Nat.lt_succ_of_lt hk, hkt, hkf⟩

theorem loop_events_mem (total : ℕ) :
    ∀ (files : List FileEntry) (p : ℕ) (ev : ProgressEvent),
      ev ∈ loop_events total p files →
      p ≤ ev.1 ∧ ev.1 ≤ p + files.length ∧ ev.2.1 = total ∧
        ev.2.2 ≠ Status.completed ∧ ev.2.2 ≠ Status.cancelled := by
  intro files
  induction files with
  | nil => intro p ev h; simp [loop_events] at h
  | cons fe rest ih =>
    intro p ev h
    simp only [loop_events, events_of, List.mem_append, List.mem_cons,
      List.mem_singleton] at h
    rcases h with (h | h | h) | h
    · subst h; simp
    · subst h; simp
    · simp at h
    · have := ih (p + 1) ev h
      refine ⟨by omega, by simp; omega, this.2.2⟩

theorem loop_events_head (total : ℕ) (files : List FileEntry) (p : ℕ)
    (y : ProgressEvent) (l : List ProgressEvent)
    (h : loop_events total p files = y :: l) : y.1 = p := by
  cases files with
  | nil => simp [loop_events] at h
  | cons fe rest =>
    simp only [loop_events, events_of, List.cons_append] at h
    cases h
    rfl

theorem loop_events_chain (total : ℕ) :
    ∀ (files : List FileEntry) (p : ℕ),
      List.Chain' (fun a b : ProgressEvent => a.1 ≤ b.1) (loop_events total p files) := by
  intro files
  induction files with
  | nil => intro p; simp [loop_events]
  | cons fe rest ih =>
    intro p
    simp only [loop_events, events_of, List.cons_append, List.nil_append]
    refine List.chain'_cons.mpr ⟨Nat.le_succ p, ?_⟩
    refine (List.chain'_cons'.mpr ⟨?_, ih (p + 1)⟩)
    intro y hy
    rcases hl : loop_events total (p + 1) rest with _ | ⟨z, l⟩
    · simp [hl] at hy
    · rw [hl] at hy
      simp at hy
      subst hy
      exact le_of_eq (loop_events_head total rest (p + 1) z l hl).symm

theorem loop_events_ne_nil (total : ℕ) (files : List FileEntry) (p : ℕ)
    (h : files ≠ []) : loop_events total p files ≠ [] := by
  cases files with
  | nil => simp at h
  | cons fe rest => simp [loop_events, events_of]

theorem loop_events_getLast (total : ℕ) :
    ∀ (files : List FileEntry) (p : ℕ), files ≠ [] →
      (loop_events total p files).getLast? =
        some (p + files.length, total,
          Status.progressOf (p + files.length) total (pyPct (p + files.length) total)) := by
  intro files
  induction files with
  | nil => intro p h; simp at h
  | cons fe rest ih =>
    intro p _
    cases hrest : rest with
    | nil => simp [loop_events, events_of]
    | cons g l =>
      have hne : loop_events total (p + 1) rest ≠ [] := by
        rw [hrest]; exact loop_events_ne_nil total (g :: l) (p + 1) (by simp)
      rw [← hrest]
      simp only [loop_events]
      rw [List.getLast?_append_of_ne_nil _ hne, ih (p + 1) (by rw [hrest]; simp)]
      have harith : p + 1 + rest.length = p + (rest.length + 1) := by omega
      rw [harith]
      simp

theorem effects_of_preserve (c : VideoConverter) (fe : FileEntry)
    (h : c.preserve_structure = true) :
    effects_of c fe = [Effect.mkdir (output_subdir_of c fe), Effect.invoke (cmd_of c fe)] := by
  simp [effects_of, h]

theorem effects_of_flat (c : VideoConverter) (fe : FileEntry)
    (h : c.preserve_structure = false) :
    effects_of c fe = [Effect.invoke (cmd_of c fe)] := by
  simp [effects_of, h]

theorem effects_filter_invoke (c : VideoConverter) (files : List FileEntry) :
    (files.flatMap (effects_of c)).filter isInvoke =
      files.map (fun fe => Effect.invoke (cmd_of c fe)) := by
  induction files with
  | nil => simp
  | cons fe rest ih =>
    rw [List.flatMap_cons, List.filter_append, ih]
    cases hp : c.preserve_structure
    · rw [effects_of_flat c fe hp]; simp [isInvoke]
    · rw [effects_of_preserve c fe hp]; simp [isInvoke]

theorem logs_countP_failure (c : VideoConverter) (exec : List String → ProcResult)
    (files : List FileEntry) :
    (files.flatMap (logs_of c exec)).countP isFailureLine =
      (files.filter (fun fe => ! success_of c exec fe)).length := by
  induction files with
  | nil => simp
  | cons fe rest ih =>
    rw [List.flatMap_cons, List.countP_append, ih, List.filter_cons]
    cases hs : success_of c exec fe
    · simp [logs_of, hs, isFailureLine, List.countP_cons]
      omega
    · simp [logs_of, hs, isFailureLine, List.countP_cons]

theorem run_header_no_failure (c : VideoConverter) :
    (run_header c).countP isFailureLine = 0 := by
  simp [run_header, List.countP_cons, isFailureLine]

/-! ### C2: the encoder-invoker contract -/

/-- Exit code of the spawned process, when it ran to completion. -/
def procExitCode : ProcResult → Option ℤ
  | ProcResult.exit code _ _ => some code
  | ProcResult.raised _ => none

/-- Best-available diagnostic text: the captured error stream when the
process completed, the raised error's message otherwise. -/
def procErrText : ProcResult → String
  | ProcResult.exit _ _ err => err
  | ProcResult.raised msg => msg

/-- C2: `convert_video` is a total function of the process outcome (no
exception escapes it); it returns success exactly when the spawned process
exits with status code 0, and its diagnostic text is the captured error
stream when the process completed, or the raised error's message text when
the invocation raised instead. -/
theorem C2_convert_video_contract (c : VideoConverter)
    (exec : List String → ProcResult) (input_path output_path : String) :
    ((convert_video c exec input_path output_path).1 = true ↔
      procExitCode (exec (build_cmd c.ffmpeg_path input_path output_path c.dst_format)) =
        some 0) ∧
    (convert_video c exec input_path output_path).2 =
      procErrText (exec (build_cmd c.ffmpeg_path input_path output_path c.dst_format)) := by
  unfold convert_video
  cases hr : exec (build_cmd c.ffmpeg_path input_path output_path c.dst_format) with
  | exit code out err =>
    by_cases h0 : code = 0
    · subst h0; simp [procExitCode, procErrText]
    · simp [procExitCode, procErrText, h0]
  | raised msg => simp [procExitCode, procErrText]

/-! ### C8: the destination-format table -/

/-- C8: the encoder argument list is a function of the destination extension
alone (given the executable and the two paths): each of the four supported
formats maps to its fixed parameter row, and every other destination
extension maps to the lossless stream-copy row. -/
theorem C8_format_table (f i o d : String)
    (h1 : d ≠ ".mp4") (h2 : d ≠ ".webm") (h3 : d ≠ ".avi") (h4 : d ≠ ".mov") :
    build_cmd f i o ".mp4" =
      [f, "-i", i, "-c:v", "libx264", "-crf", "23", "-preset", "medium",
       "-c:a", "aac", "-b:a", "128k", "-y", o] ∧
    build_cmd f i o ".webm" =
      [f, "-i", i, "-c:v", "libvpx-vp9", "-crf", "30", "-b:v", "0",
       "-c:a", "libopus", "-b:a", "128k", "-y", o] ∧
    build_cmd f i o ".avi" =
      [f, "-i", i, "-c:v", "mpeg4", "-q:v", "3", "-c:a", "mp3",
       "-b:a", "128k", "-y", o] ∧
    build_cmd f i o ".mov" =
      [f, "-i", i, "-c:v", "h264", "-crf", "23", "-c:a", "aac",
       "-b:a", "128k", "-y", o] ∧
    build_cmd f i o d = [f, "-i", i, "-c", "copy", "-y", o] := by
  refine ⟨?_, ?_, ?_, ?_, ?_⟩ <;> simp [build_cmd, h1, h2, h3, h4]

/-- C8 witness: the table rows at concrete arguments, with the fallback row
exercised at the unsupported destination `.mkv`. -/
theorem C8_format_table_witness :
    build_cmd "ffmpeg" "/in/a.mpg" "/out/a.mp4" ".mp4" =
      ["ffmpeg", "-i", "/in/a.mpg", "-c:v", "libx264", "-crf", "23", "-preset", "medium",
       "-c:a", "aac", "-b:a", "128k", "-y", "/out/a.mp4"] ∧
    build_cmd "ffmpeg" "/in/a.mpg" "/out/a.mp4" ".webm" =
      ["ffmpeg", "-i", "/in/a.mpg", "-c:v", "libvpx-vp9", "-crf", "30", "-b:v", "0",
       "-c:a", "libopus", "-b:a", "128k", "-y", "/out/a.mp4"] ∧
    build_cmd "ffmpeg" "/in/a.mpg" "/out/a.mp4" ".avi" =
      ["ffmpeg", "-i", "/in/a.mpg", "-c:v", "mpeg4", "-q:v", "3", "-c:a", "mp3",
       "-b:a", "128k", "-y", "/out/a.mp4"] ∧
    build_cmd "ffmpeg" "/in/a.mpg" "/out/a.mp4" ".mov" =
      ["ffmpeg", "-i", "/in/a.mpg", "-c:v", "h264", "-crf", "23", "-c:a", "aac",
       "-b:a", "128k", "-y", "/out/a.mp4"] ∧
    build_cmd "ffmpeg" "/in/a.mpg" "/out/a.mp4" ".mkv" =
      ["ffmpeg", "-i", "/in/a.mpg", "-c", "copy", "-y", "/out/a.mp4"] :=
  C8_format_table "ffmpeg" "/in/a.mpg" "/out/a.mp4" ".mkv"
    (by decide) (by decide) (by decide) (by decide)

/-! ### C9: what the cancel request mutates -/

/-- A sample converter configuration (flat mode). -/
def cFlatSample : VideoConverter :=
  { input_dir := "/in", output_dir := "/out", ffmpeg_path := "ffmpeg",
    src_formats := [".mpg", ".avi"], dst_format := ".mp4",
    preserve_structure := false }

/-- The state of a freshly constructed converter object: flag clear, both
queues empty. -/
def freshState : ConverterState :=
  { config := cFlatSample, cancel_flag := false,
    log_queue := [], progress_queue := [] }

/-- C9 counterexample: `cancel` does not leave the log channel untouched — on
a freshly constructed converter it enqueues a line ("正在取消转换...") onto the
log queue, so the control context is also a producer on that channel. -/
theorem C9_cancel_counterexample :
    (requestCancel freshState).log_queue ≠ freshState.log_queue := by
  simp [requestCancel, freshState]

/-- C9 amended: `cancel` sets the cancellation flag and enqueues exactly one
line on the log channel; it enqueues nothing on the progress channel and
mutates no other field. -/
theorem C9_cancel_frame (st : ConverterState) :
    (requestCancel st).cancel_flag = true ∧
    (requestCancel st).log_queue = st.log_queue ++ [LogEvent.cancelRequested] ∧
    (requestCancel st).progress_queue = st.progress_queue ∧
    (requestCancel st).config = st.config := by
  simp [requestCancel]

/-! ### C6: the empty-enumeration run -/

/-- C6: when enumeration matches no files, the run enqueues exactly one
"nothing to convert" log line, exactly one ProgressEvent — the terminal one
with the nothing-to-convert status — performs no external side effect (in
particular, the encoder is never invoked), and terminates. -/
theorem C6_no_files (c : VideoConverter) (fs : List Entry)
    (exec : List String → ProcResult) (cancel : ℕ → Bool)
    (h : get_video_files c fs = []) :
    (start_conversion c fs exec cancel).logs.countP isNoFilesLine = 1 ∧
    (start_conversion c fs exec cancel).progress = [(0, 0, Status.nothingToConvert)] ∧
    (start_conversion c fs exec cancel).effects = [] := by
  rw [start_conversion_empty c fs exec cancel h]
  refine ⟨?_, rfl, rfl⟩
  simp [run_header, List.countP_append, List.countP_cons, isNoFilesLine]

/-- C6 witness: a flat-mode run over a directory holding no matching entries. -/
theorem C6_no_files_witness :
    (start_conversion cFlatSample [Entry.file "notes.txt"] (fun _ => ProcResult.exit 0 "" "")
        (fun _ => false)).logs.countP isNoFilesLine = 1 ∧
    (start_conversion cFlatSample [Entry.file "notes.txt"] (fun _ => ProcResult.exit 0 "" "")
        (fun _ => false)).progress = [(0, 0, Status.nothingToConvert)] ∧
    (start_conversion cFlatSample [Entry.file "notes.txt"] (fun _ => ProcResult.exit 0 "" "")
        (fun _ => false)).effects = [] :=
  C6_no_files cFlatSample [Entry.file "notes.txt"] (fun _ => ProcResult.exit 0 "" "")
    (fun _ => false) (by decide)

/-! ### C1: per-file failure is non-fatal -/

/-- C1: in a run with a non-empty enumeration and no cancellation, every
enumerated file is processed (the encoder is invoked once per file, in
order), `processed_files` ends equal to the number of enumerated files
regardless of per-file outcomes, the final ProgressEvent is the "completed"
terminal event with `processed = total`, and the log carries exactly one
failure line per failed file. -/
theorem C1_failures_nonfatal (c : VideoConverter) (fs : List Entry)
    (exec : List String → ProcResult) (cancel : ℕ → Bool)
    (hne : get_video_files c fs ≠ [])
    (hnc : ∀ i, cancel i = false) :
    (start_conversion c fs exec cancel).processed = (get_video_files c fs).length ∧
    ((start_conversion c fs exec cancel).effects.filter isInvoke) =
      (get_video_files c fs).map (fun fe => Effect.invoke (cmd_of c fe)) ∧
    (start_conversion c fs exec cancel).progress.getLast? =
      some ((get_video_files c fs).length, (get_video_files c fs).length,
        Status.completed) ∧
    (start_conversion c fs exec cancel).logs.countP isFailureLine =
      ((get_video_files c fs).filter (fun fe => ! success_of c exec fe)).length := by
  rw [start_conversion_exhaust c fs exec cancel _ rfl hne (fun i _ => hnc i)]
  rw [hnc (get_video_files c fs).length]
  simp only [Bool.false_eq_true, if_false]
  refine ⟨by simp, ?_, ?_, ?_⟩
  · simp [effects_filter_invoke]
  · simp [List.getLast?_concat]
  · rw [List.countP_append, List.countP_append, run_header_no_failure,
      logs_countP_failure]
    simp [isFailureLine, List.countP_cons]

/-- C1 witness: two files, both of which fail (non-zero exit), with no
cancellation; the run still processes both and completes. -/
theorem C1_failures_nonfatal_witness :
    (start_conversion cFlatSample [Entry.file "a.mpg", Entry.file "b.avi"]
        (fun _ => ProcResult.exit 1 "" "boom") (fun _ => false)).processed =
      (get_video_files cFlatSample [Entry.file "a.mpg", Entry.file "b.avi"]).length ∧
    ((start_conversion cFlatSample [Entry.file "a.mpg", Entry.file "b.avi"]
        (fun _ => ProcResult.exit 1 "" "boom") (fun _ => false)).effects.filter isInvoke) =
      (get_video_files cFlatSample [Entry.file "a.mpg", Entry.file "b.avi"]).map
        (fun fe => Effect.invoke (cmd_of cFlatSample fe)) ∧
    (start_conversion cFlatSample [Entry.file "a.mpg", Entry.file "b.avi"]
        (fun _ => ProcResult.exit 1 "" "boom") (fun _ => false)).progress.getLast? =
      some ((get_video_files cFlatSample [Entry.file "a.mpg", Entry.file "b.avi"]).length,
        (get_video_files cFlatSample [Entry.file "a.mpg", Entry.file "b.avi"]).length,
        Status.completed) ∧
    (start_conversion cFlatSample [Entry.file "a.mpg", Entry.file "b.avi"]
        (fun _ => ProcResult.exit 1 "" "boom") (fun _ => false)).logs.countP isFailureLine =
      ((get_video_files cFlatSample [Entry.file "a.mpg", Entry.file "b.avi"]).filter
        (fun fe => ! success_of cFlatSample (fun _ => ProcResult.exit 1 "" "boom") fe)).length :=
  C1_failures_nonfatal cFlatSample [Entry.file "a.mpg", Entry.file "b.avi"]
    (fun _ => ProcResult.exit 1 "" "boom") (fun _ => false) (by decide) (fun _ => rfl)

/-! ### C3: cooperative cancellation -/

/-- C3: if the (monotone) cancellation flag is first observed set at the
top-of-loop check number `k` while files remain, then only the first `k`
files produce side effects — the encoder is never invoked for file `k` or
any later file — a cancellation log line is emitted, and the run ends with
the terminal ProgressEvent `(k, total, cancelled)`. -/
theorem C3_cancellation_stops_run (c : VideoConverter) (fs : List Entry)
    (exec : List String → ProcResult) (cancel : ℕ → Bool) (k : ℕ)
    (hmono : ∀ i j, i ≤ j → cancel i = true → cancel j = true)
    (hk : k < (get_video_files c fs).length)
    (hkt : cancel k = true)
    (hkf : ∀ i, i < k → cancel i = false) :
    (start_conversion c fs exec cancel).effects =
      ((get_video_files c fs).take k).flatMap (effects_of c) ∧
    LogEvent.cancelBreak ∈ (start_conversion c fs exec cancel).logs ∧
    (start_conversion c fs exec cancel).progress.getLast? =
      some (k, (get_video_files c fs).length, Status.cancelled) ∧
    (start_conversion c fs exec cancel).processed = k := by
  have hpost : cancel (k + 1) = true := hmono k (k + 1) (by omega) hkt
  rw [start_conversion_break c fs exec cancel _ k rfl hk hkt hkf]
  rw [hpost]
  simp only [if_true]
  refine ⟨by simp, ?_, ?_, by simp⟩
  · simp
  · simp [List.getLast?_concat]

/-- C3 witness: the flag is already set at the first check of a one-file
run; no encoder invocation happens and the run ends cancelled at `(0, 1)`. -/
theorem C3_cancellation_stops_run_witness :
    (start_conversion cFlatSample [Entry.file "a.mpg"] (fun _ => ProcResult.exit 0 "" "")
        (fun _ => true)).effects =
      ((get_video_files cFlatSample [Entry.file "a.mpg"]).take 0).flatMap
        (effects_of cFlatSample) ∧
    LogEvent.cancelBreak ∈ (start_conversion cFlatSample [Entry.file "a.mpg"]
        (fun _ => ProcResult.exit 0 "" "") (fun _ => true)).logs ∧
    (start_conversion cFlatSample [Entry.file "a.mpg"] (fun _ => ProcResult.exit 0 "" "")
        (fun _ => true)).progress.getLast? =
      some (0, (get_video_files cFlatSample [Entry.file "a.mpg"]).length, Status.cancelled) ∧
    (start_conversion cFlatSample [Entry.file "a.mpg"] (fun _ => ProcResult.exit 0 "" "")
        (fun _ => true)).processed = 0 :=
  C3_cancellation_stops_run cFlatSample [Entry.file "a.mpg"]
    (fun _ => ProcResult.exit 0 "" "") (fun _ => true) 0
    (fun _ _ _ _ => rfl) (by decide) rfl (fun i hi => absurd hi (Nat.not_lt_zero i))

/-! ### C4: progress-event invariants -/

theorem progress_shape_invariants (n L P : ℕ) (filesL : List FileEntry) (st : Status)
    (hL : filesL.length = L) (hLn : L ≤ n) (hP : P = L)
    (hstc : st = Status.completed → P = n) :
    (∀ ev ∈ loop_events n 0 filesL ++ [(P, n, st)], ev.1 ≤ ev.2.1) ∧
    List.Chain' (fun a b : ProgressEvent => a.1 ≤ b.1)
      (loop_events n 0 filesL ++ [(P, n, st)]) ∧
    (∀ ev ∈ loop_events n 0 filesL ++ [(P, n, st)], ev.2.1 = n) ∧
    (∀ ev ∈ loop_events n 0 filesL ++ [(P, n, st)],
        ev.2.2 = Status.completed → ev.1 = ev.2.1) := by
  refine ⟨?_, ?_, ?_, ?_⟩
  · intro ev hev
    rcases List.mem_append.mp hev with h | h
    · obtain ⟨_, h1, h2, _, _⟩ := loop_events_mem n filesL 0 ev h
      rw [h2]
      omega
    · rw [List.mem_singleton] at h
      subst h
      simpa using hLn.trans_eq' hP
  · apply List.chain'_append.mpr
    refine ⟨loop_events_chain n filesL 0, List.chain'_singleton _, ?_⟩
    intro x hx y hy
    simp only [List.head?_cons, Option.mem_some_iff] at hy
    subst hy
    by_cases hfl : filesL = []
    · rw [hfl] at hx
      simp [loop_events] at hx
    · rw [loop_events_getLast n filesL 0 hfl] at hx
      simp only [Option.mem_some_iff] at hx
      subst hx
      simp
      omega
  · intro ev hev
    rcases List.mem_append.mp hev with h | h
    · exact (loop_events_mem n filesL 0 ev h).2.2.1
    · rw [List.mem_singleton] at h
      subst h
      rfl
  · intro ev hev h
    rcases List.mem_append.mp hev with hm | hm
    · exact absurd h (loop_events_mem n filesL 0 ev hm).2.2.2.1
    · rw [List.mem_singleton] at hm
      subst hm
      exact hstc h

/-- C4: every ProgressEvent the orchestrator enqueues carries
`processed ≤ total`; the processed counts of successive events are
non-decreasing; every event of one run carries the same total (the
enumeration length fixed at run start); and any event with the "completed"
status carries `processed = total`.  (The flag is monotone: once set it
stays set — this is how the shared boolean behaves.) -/
theorem C4_progress_invariants (c : VideoConverter) (fs : List Entry)
    (exec : List String → ProcResult) (cancel : ℕ → Bool)
    (hmono : ∀ i j, i ≤ j → cancel i = true → cancel j = true) :
    (∀ ev ∈ (start_conversion c fs exec cancel).progress, ev.1 ≤ ev.2.1) ∧
    List.Chain' (fun a b : ProgressEvent => a.1 ≤ b.1)
      (start_conversion c fs exec cancel).progress ∧
    (∀ ev ∈ (start_conversion c fs exec cancel).progress,
        ev.2.1 = (get_video_files c fs).length) ∧
    (∀ ev ∈ (start_conversion c fs exec cancel).progress,
        ev.2.2 = Status.completed → ev.1 = ev.2.1) := by
  by_cases hempty : get_video_files c fs = []
  · rw [start_conversion_empty c fs exec cancel hempty, hempty]
    refine ⟨?_, ?_, ?_, ?_⟩ <;> simp
  · rcases cancel_first cancel (get_video_files c fs).length with hnc | ⟨k, hk, hkt, hkf⟩
    · rw [start_conversion_exhaust c fs exec cancel _ rfl hempty hnc]
      have := progress_shape_invariants (get_video_files c fs).length
        (get_video_files c fs).length (get_video_files c fs).length
        (get_video_files c fs)
        (if cancel (get_video_files c fs).length then Status.cancelled
         else Status.completed)
        rfl (le_refl _) rfl (fun _ => rfl)
      simpa using this
    · have hpost : cancel (k + 1) = true := hmono k (k + 1) (by omega) hkt
      rw [start_conversion_break c fs exec cancel _ k rfl hk hkt hkf, hpost]
      simp only [if_true]
      have := progress_shape_invariants (get_video_files c fs).length k k
        ((get_video_files c fs).take k) Status.cancelled
        (by rw [List.length_take]; omega) (by omega) rfl (fun h => nomatch h)
      simpa using this

/-- C4 witness: the invariants instantiated on a concrete one-file run. -/
theorem C4_progress_invariants_witness :
    (∀ ev ∈ (start_conversion cFlatSample [Entry.file "a.mpg"]
        (fun _ => ProcResult.exit 0 "" "") (fun _ => false)).progress, ev.1 ≤ ev.2.1) ∧
    List.Chain' (fun a b : ProgressEvent => a.1 ≤ b.1)
      (start_conversion cFlatSample [Entry.file "a.mpg"]
        (fun _ => ProcResult.exit 0 "" "") (fun _ => false)).progress ∧
    (∀ ev ∈ (start_conversion cFlatSample [Entry.file "a.mpg"]
        (fun _ => ProcResult.exit 0 "" "") (fun _ => false)).progress,
        ev.2.1 = (get_video_files cFlatSample [Entry.file "a.mpg"]).length) ∧
    (∀ ev ∈ (start_conversion cFlatSample [Entry.file "a.mpg"]
        (fun _ => ProcResult.exit 0 "" "") (fun _ => false)).progress,
        ev.2.2 = Status.completed → ev.1 = ev.2.1) :=
  C4_progress_invariants cFlatSample [Entry.file "a.mpg"]
    (fun _ => ProcResult.exit 0 "" "") (fun _ => false) (fun _ _ _ hc => hc)

/-! ### C5: the reported percentage -/

theorem loop_events_pct (total : ℕ) :
    ∀ (files : List FileEntry) (p0 a b p t pc : ℕ),
      (a, b, Status.progressOf p t pc) ∈ loop_events total p0 files →
      a = p ∧ b = t ∧ b = total ∧ pc = pyPct p t := by
  intro files
  induction files with
  | nil => intro p0 a b p t pc h; simp [loop_events] at h
  | cons fe rest ih =>
    intro p0 a b p t pc h
    simp only [loop_events, events_of, List.mem_append, List.mem_cons,
      List.mem_singleton, List.not_mem_nil] at h
    rcases h with (h | h | h) | h
    · simp at h
    · rw [Prod.ext_iff] at h
      obtain ⟨ha, h2⟩ := h
      rw [Prod.ext_iff] at h2
      obtain ⟨hb, hst⟩ := h2
      simp only [Status.progressOf.injEq] at hst
      obtain ⟨hp, ht, hpc⟩ := hst
      subst hp; subst ht
      exact ⟨by simpa using ha, by simpa using hb, by simpa using hb, hpc⟩
    · simp at h
    · exact ih (p0 + 1) a b p t pc h

/-- A run over fifty matching files. -/
def fs50 : List Entry := List.replicate 50 (Entry.file "a.mpg")

/-- An encoder oracle whose every invocation succeeds silently. -/
def exec50 : List String → ProcResult := fun _ => ProcResult.exit 0 "" ""

/-- A flag-read oracle that turns true from the thirtieth read on (so the
first 29 files are processed, then the run is cancelled). -/
def cancel50 : ℕ → Bool := fun i => decide (29 ≤ i)

set_option maxRecDepth 100000 in
/-- C5 counterexample: in a run with total = 50, after the 29th file the
orchestrator enqueues the event `(29, 50, 57%)` — CPython evaluates
`int((29 / 50) * 100)` in double precision to 57 (since `29 / 50` rounds to
slightly below 0.58), while exact integer arithmetic gives
`floor(29·100/50) = 58`.  So the reported percentage is not
`floor(processed·100/total)`. -/
theorem C5_pct_counterexample :
    pyPct 29 50 = 57 ∧ 29 * 100 / 50 = 58 ∧
    (29, 50, Status.progressOf 29 50 57) ∈
      (start_conversion cFlatSample fs50 exec50 cancel50).progress := by decide

set_option maxRecDepth 100000 in
set_option maxHeartbeats 2000000 in
/-- C5 amended: the percentage carried by each per-file progress event is
`int((processed / total) * 100)` evaluated in IEEE-754 double precision
(`pyPct`), with the well-formedness that the event's counts match; this
agrees with the exact `floor(processed·100/total)` whenever `total < 50`
(and on many larger totals), but not universally — see the counterexample at
`processed = 29`, `total = 50`. -/
theorem C5_progress_percentage_float (c : VideoConverter) (fs : List Entry)
    (exec : List String → ProcResult) (cancel : ℕ → Bool) (a b p t pc : ℕ)
    (hmem : (a, b, Status.progressOf p t pc) ∈
      (start_conversion c fs exec cancel).progress) :
    a = p ∧ b = t ∧ t = (get_video_files c fs).length ∧ pc = pyPct p t ∧
    (∀ t2, t2 < 50 → 0 < t2 → ∀ p2, p2 ≤ t2 → pyPct p2 t2 = p2 * 100 / t2) := by
  have hbnd : ∀ t2, t2 < 50 → 0 < t2 → ∀ p2, p2 ≤ t2 →
      pyPct p2 t2 = p2 * 100 / t2 := by decide
  by_cases hempty : get_video_files c fs = []
  · rw [start_conversion_empty c fs exec cancel hempty] at hmem
    simp at hmem
  · rcases cancel_first cancel (get_video_files c fs).length with hnc | ⟨k, hk, hkt, hkf⟩
    · rw [start_conversion_exhaust c fs exec cancel _ rfl hempty hnc] at hmem
      rcases List.mem_append.mp hmem with h | h
      · obtain ⟨ha, hb, hbt, hpc⟩ := loop_events_pct _ _ _ _ _ _ _ _ h
        exact ⟨ha, hb, hb ▸ hbt, hpc, hbnd⟩
      · rw [List.mem_singleton] at h
        by_cases hc : cancel (get_video_files c fs).length = true <;>
          simp [hc] at h
    · rw [start_conversion_break c fs exec cancel _ k rfl hk hkt hkf] at hmem
      rcases List.mem_append.mp hmem with h | h
      · obtain ⟨ha, hb, hbt, hpc⟩ := loop_events_pct _ _ _ _ _ _ _ _ h
        exact ⟨ha, hb, hb ▸ hbt, hpc, hbnd⟩
      · rw [List.mem_singleton] at h
        by_cases hc : cancel (k + 1) = true <;> simp [hc] at h

/-- C5 amended witness: in the one-file run the per-file event is
`(1, 1, 100%)`, and the event data match the float model. -/
theorem C5_progress_percentage_float_witness :
    (1 : ℕ) = 1 ∧ (1 : ℕ) = 1 ∧
    (1 : ℕ) = (get_video_files cFlatSample [Entry.file "a.mpg"]).length ∧
    (100 : ℕ) = pyPct 1 1 ∧
    (∀ t2, t2 < 50 → 0 < t2 → ∀ p2, p2 ≤ t2 → pyPct p2 t2 = p2 * 100 / t2) :=
  C5_progress_percentage_float cFlatSample [Entry.file "a.mpg"]
    (fun _ => ProcResult.exit 0 "" "") (fun _ => false) 1 1 1 1 100 (by decide)

/-! ### C7: destination-path resolution -/

/-- A sample converter configuration (preserve-structure mode), with source
root `/r` and destination root `/out`. -/
def cPreserveSample : VideoConverter :=
  { input_dir := "/r", output_dir := "/out", ffmpeg_path := "ffmpeg",
    src_formats := [".mpg"], dst_format := ".mp4",
    preserve_structure := true }

/-- The source tree holding the single file `/r/a/b/c.mpg`. -/
def fsSampleTree : List Entry :=
  [Entry.dir "a" [Entry.dir "b" [Entry.file "c.mpg"]]]

/-- C7: for every processed file the run's effect trace interleaves, per file
in order, the `makedirs` of the mirrored destination subdirectory directly
before that file's encoder invocation (preserve mode) or just the invocation
(flat mode); the destination path joins the destination root with the source
directory's path relative to the source root and the filename with its
extension replaced — concretely, `/r/a/b/c.mpg` under destination root
`/out` with destination extension `.mp4` resolves to `/out/a/b/c.mp4` after
creating `/out/a/b`. -/
theorem C7_destination_paths (c : VideoConverter) (fs : List Entry)
    (exec : List String → ProcResult) (cancel : ℕ → Bool)
    (hnc : ∀ i, cancel i = false) :
    (start_conversion c fs exec cancel).effects =
      (get_video_files c fs).flatMap (effects_of c) ∧
    (∀ fe, c.preserve_structure = true →
      effects_of c fe = [Effect.mkdir (output_subdir_of c fe),
        Effect.invoke (cmd_of c fe)]) ∧
    (∀ fe, c.preserve_structure = false →
      effects_of c fe = [Effect.invoke (cmd_of c fe)]) ∧
    (∀ fe, c.preserve_structure = true →
      output_path_of c fe =
        pjoin (pjoin c.output_dir (relpath fe.root c.input_dir))
          ((splitext fe.name).1 ++ c.dst_format)) ∧
    (∀ fe, c.preserve_structure = false →
      output_path_of c fe =
        pjoin c.output_dir ((splitext fe.name).1 ++ c.dst_format)) ∧
    get_video_files cPreserveSample fsSampleTree = [⟨"/r/a/b", "c.mpg"⟩] ∧
    output_subdir_of cPreserveSample ⟨"/r/a/b", "c.mpg"⟩ = "/out/a/b" ∧
    output_path_of cPreserveSample ⟨"/r/a/b", "c.mpg"⟩ = "/out/a/b/c.mp4" := by
  refine ⟨?_, ?_, ?_, ?_, ?_, ?_, ?_, ?_⟩
  · by_cases hempty : get_video_files c fs = []
    · rw [start_conversion_empty c fs exec cancel hempty, hempty]
      rfl
    · rw [start_conversion_exhaust c fs exec cancel _ rfl hempty (fun i _ => hnc i)]
  · intro fe h; exact effects_of_preserve c fe h
  · intro fe h; exact effects_of_flat c fe h
  · intro fe h; simp [output_path_of, output_subdir_of, output_file_of, h]
  · intro fe h; simp [output_path_of, output_file_of, h]
  · have h1 : pjoin "/r" "a" = "/r/a" := rfl
    have h2 : pjoin "/r/a" "b" = "/r/a/b" := rfl
    have hw : walk "/r" [Entry.dir "a" [Entry.dir "b" [Entry.file "c.mpg"]]] =
        [("/r", ["a"], []), ("/r/a", ["b"], []), ("/r/a/b", [], ["c.mpg"])] := by
      simp [walk, walkSub, h1, h2, dirName?, fileName?]
    show get_video_files cPreserveSample fsSampleTree = _
    unfold get_video_files fsSampleTree
    rw [show cPreserveSample.preserve_structure = true from rfl, if_pos rfl,
      show cPreserveSample.input_dir = "/r" from rfl, hw]
    decide
  · decide
  · decide

/-- C7 witness: the theorem instantiated on the sample preserve-structure run
over `/r/a/b/c.mpg`, with an always-succeeding encoder and no cancellation. -/
theorem C7_destination_paths_witness :
    (start_conversion cPreserveSample fsSampleTree (fun _ => ProcResult.exit 0 "" "")
        (fun _ => false)).effects =
      (get_video_files cPreserveSample fsSampleTree).flatMap (effects_of cPreserveSample) ∧
    (∀ fe, cPreserveSample.preserve_structure = true →
      effects_of cPreserveSample fe = [Effect.mkdir (output_subdir_of cPreserveSample fe),
        Effect.invoke (cmd_of cPreserveSample fe)]) ∧
    (∀ fe, cPreserveSample.preserve_structure = false →
      effects_of cPreserveSample fe = [Effect.invoke (cmd_of cPreserveSample fe)]) ∧
    (∀ fe, cPreserveSample.preserve_structure = true →
      output_path_of cPreserveSample fe =
        pjoin (pjoin cPreserveSample.output_dir (relpath fe.root cPreserveSample.input_dir))
          ((splitext fe.name).1 ++ cPreserveSample.dst_format)) ∧
    (∀ fe, cPreserveSample.preserve_structure = false →
      output_path_of cPreserveSample fe =
        pjoin cPreserveSample.output_dir ((splitext fe.name).1 ++ cPreserveSample.dst_format)) ∧
    get_video_files cPreserveSample fsSampleTree = [⟨"/r/a/b", "c.mpg"⟩] ∧
    output_subdir_of cPreserveSample ⟨"/r/a/b", "c.mpg"⟩ = "/out/a/b" ∧
    output_path_of cPreserveSample ⟨"/r/a/b", "c.mpg"⟩ = "/out/a/b/c.mp4" :=
  C7_destination_paths cPreserveSample fsSampleTree (fun _ => ProcResult.exit 0 "" "")
    (fun _ => false) (fun _ => rfl)

/-! ### C10: what enumeration yields in each mode -/

/-- A regular-file node named `name`, lying in the (sub)directory whose walk
path is `root`, reachable from the directory whose walk path is `path`. -/
inductive HasFile : List Entry → String → String → String → Prop where
  | here : ∀ {es path name}, Entry.file name ∈ es → HasFile es path path name
  | there : ∀ {es path root name n cs}, Entry.dir n cs ∈ es →
      HasFile cs (pjoin path n) root name → HasFile es path root name

theorem HasFile.weaken {rest : List Entry} {path root name : String}
    (h : HasFile rest path root name) (e : Entry) :
    HasFile (e :: rest) path root name := by
  cases h with
  | here hmem => exact HasFile.here (List.mem_cons_of_mem e hmem)
  | there hmem hsub => exact HasFile.there (List.mem_cons_of_mem e hmem) hsub

/-- Every name in the file list of any `os.walk` frame is a regular-file node
of the tree, located in the directory the frame's path denotes. -/
theorem walk_hasFile_strong :
    ∀ (N : ℕ) (es : List Entry), sizeOf es ≤ N →
      (∀ path fr, fr ∈ walk path es → ∀ name, name ∈ fr.2.2 →
        HasFile es path fr.1 name) ∧
      (∀ path fr, fr ∈ walkSub path es → ∀ name, name ∈ fr.2.2 →
        HasFile es path fr.1 name) := by
  intro N
  induction N with
  | zero =>
    intro es hsz
    have hpos : 0 < sizeOf es := by
      cases es <;> simp [List.nil.sizeOf_spec, List.cons.sizeOf_spec]
    omega
  | succ N ih =>
    intro es hsz
    have hsub : ∀ path fr, fr ∈ walkSub path es → ∀ name, name ∈ fr.2.2 →
        HasFile es path fr.1 name := by
      cases es with
      | nil => intro path fr hfr; simp [walkSub] at hfr
      | cons e rest =>
        intro path fr hfr name hname
        have hepos : 0 < sizeOf e := by cases e <;> simp
        have hszc : sizeOf (e :: rest) = 1 + sizeOf e + sizeOf rest := by
          simp [List.cons.sizeOf_spec]
        cases e with
        | file s =>
          simp only [walkSub] at hfr
          exact ((ih rest (by omega)).2 path fr hfr name hname).weaken _
        | dir n cs =>
          have hcs : sizeOf (Entry.dir n cs) = 1 + sizeOf n + sizeOf cs := by simp
          simp only [walkSub] at hfr
          rcases List.mem_append.mp hfr with h | h
          · exact HasFile.there (List.mem_cons_self _ _)
              ((ih cs (by omega)).1 (pjoin path n) fr h name hname)
          · exact ((ih rest (by omega)).2 path fr h name hname).weaken _
    refine ⟨?_, hsub⟩
    intro path fr hfr name hname
    rw [walk] at hfr
    rcases List.mem_cons.mp hfr with h | h
    · subst h
      rcases List.mem_filterMap.mp hname with ⟨e, hmem, he⟩
      cases e with
      | file s =>
        simp only [fileName?, Option.some.injEq] at he
        exact HasFile.here (he ▸ hmem)
      | dir n cs => simp [fileName?] at he
    · exact hsub path fr h name hname

/-- C10: flat-mode enumeration is exactly a case-insensitive suffix filter
over the raw `os.listdir` names — no regular-file test — so a subdirectory
whose name matches a selected extension is yielded as a `FileEntry` and its
path is later handed to the encoder as the input of an invocation; recursive
(preserve-structure) enumeration, by contrast, yields only names that are
regular-file nodes of the tree. -/
theorem C10_enumeration_modes (c c2 : VideoConverter) (fs fs2 : List Entry)
    (exec : List String → ProcResult) (cancel : ℕ → Bool)
    (dname : String) (cs : List Entry) (fe : FileEntry)
    (hflat : c.preserve_structure = false)
    (hmem : Entry.dir dname cs ∈ fs)
    (hmatch : matchesFormats c.src_formats dname = true)
    (hnc : ∀ i, cancel i = false)
    (hrec : c2.preserve_structure = true)
    (hfe : fe ∈ get_video_files c2 fs2) :
    get_video_files c fs =
      ((fs.map entryName).filter (matchesFormats c.src_formats)).map
        (fun n2 => FileEntry.mk c.input_dir n2) ∧
    FileEntry.mk c.input_dir dname ∈ get_video_files c fs ∧
    Effect.invoke (cmd_of c (FileEntry.mk c.input_dir dname)) ∈
      (start_conversion c fs exec cancel).effects ∧
    HasFile fs2 c2.input_dir fe.root fe.name := by
  have heq : get_video_files c fs =
      ((fs.map entryName).filter (matchesFormats c.src_formats)).map
        (fun n2 => FileEntry.mk c.input_dir n2) := by
    unfold get_video_files
    rw [hflat]
    simp
  have hgm : FileEntry.mk c.input_dir dname ∈ get_video_files c fs := by
    rw [heq]
    exact List.mem_map.mpr ⟨dname,
      List.mem_filter.mpr ⟨List.mem_map.mpr ⟨Entry.dir dname cs, hmem, rfl⟩, hmatch⟩, rfl⟩
  refine ⟨heq, hgm, ?_, ?_⟩
  · have hne : get_video_files c fs ≠ [] := fun h => by rw [h] at hgm; simp at hgm
    rw [start_conversion_exhaust c fs exec cancel _ rfl hne (fun i _ => hnc i)]
    show Effect.invoke _ ∈ (get_video_files c fs).flatMap (effects_of c)
    exact List.mem_flatMap.mpr ⟨_, hgm, by rw [effects_of_flat c _ hflat]; simp⟩
  · unfold get_video_files at hfe
    rw [hrec] at hfe
    simp only [if_true] at hfe
    rcases List.mem_flatMap.mp hfe with ⟨fr, hfr, hfe2⟩
    rcases List.mem_map.mp hfe2 with ⟨f, hf, hfeq⟩
    have hf2 : f ∈ fr.2.2 := (List.mem_filter.mp hf).1
    have hhf := (walk_hasFile_strong (sizeOf fs2) fs2 (le_refl _)).1
      c2.input_dir fr hfr f hf2
    rw [← hfeq]
    simpa using hhf

/-- C10 witness: a flat-mode root holding only the subdirectory `evil.mpg`
(whose name matches the `.mpg` suffix) — it is enumerated and invoked as an
encoder input — paired with the recursive run over `/r/a/b/c.mpg`. -/
theorem C10_enumeration_modes_witness :
    get_video_files cFlatSample [Entry.dir "evil.mpg" []] =
      (([Entry.dir "evil.mpg" []].map entryName).filter
        (matchesFormats cFlatSample.src_formats)).map
        (fun n2 => FileEntry.mk cFlatSample.input_dir n2) ∧
    FileEntry.mk cFlatSample.input_dir "evil.mpg" ∈
      get_video_files cFlatSample [Entry.dir "evil.mpg" []] ∧
    Effect.invoke (cmd_of cFlatSample (FileEntry.mk cFlatSample.input_dir "evil.mpg")) ∈
      (start_conversion cFlatSample [Entry.dir "evil.mpg" []]
        (fun _ => ProcResult.exit 0 "" "") (fun _ => false)).effects ∧
    HasFile fsSampleTree cPreserveSample.input_dir "/r/a/b" "c.mpg" :=
  C10_enumeration_modes cFlatSample cPreserveSample [Entry.dir "evil.mpg" []] fsSampleTree
    (fun _ => ProcResult.exit 0 "" "") (fun _ => false) "evil.mpg" []
    (FileEntry.mk "/r/a/b" "c.mpg")
    rfl (List.mem_singleton.mpr rfl) (by decide) (fun _ => rfl) rfl
    (by
      have h1 : pjoin "/r" "a" = "/r/a" := rfl
      have h2 : pjoin "/r/a" "b" = "/r/a/b" := rfl
      have hw : walk "/r" [Entry.dir "a" [Entry.dir "b" [Entry.file "c.mpg"]]] =
          [("/r", ["a"], []), ("/r/a", ["b"], []), ("/r/a/b", [], ["c.mpg"])] := by
        simp [walk, walkSub, h1, h2, dirName?, fileName?]
      unfold get_video_files fsSampleTree
      rw [show cPreserveSample.preserve_structure = true from rfl, if_pos rfl,
        show cPreserveSample.input_dir = "/r" from rfl, hw]
      decide)
